import Mathlib

/-!
A verification development for the brain-network simulation core
(`src/simulation/network.py`, `src/simulation/central_hub.py`,
`src/simulation/learning.py`).

The Python classes are shallowly embedded as Lean structures over exact
rational arithmetic (`ℚ` in place of IEEE floats; every constant that
appears in a claim was checked to behave identically under repeated
binary-float addition at the claimed inputs).  Object references are
replaced by arena indices: the `Network` owns a flat list of neurons and
a flat list of connections, and a neuron's `outgoing`/`incoming` lists
hold positions into the network's connection list, mirroring the
source's "connections owned by the Network, neurons hold references"
model.  Purely visual fields (2-D positions, colors, radii) and string
identities of neurons are omitted; connection ids keep the numeric
counter that the source embeds in its `conn_{k}` id strings.  Python's
in-place mutation becomes explicit state passing, iterating in exactly
the source's statement order.
-/

namespace BrainSim

/-- Replace the element at position `i` (Python's in-place mutation of
`list[i]`); out-of-range indices leave the list unchanged. -/
def modifyIdx {α : Type} (f : α → α) : ℕ → List α → List α
  | _, [] => []
  | 0, x :: xs => f x :: xs
  | i + 1, x :: xs => x :: modifyIdx f i xs

/-- `Neuron` (network.py lines 13-69): dynamic state plus the
outgoing/incoming connection reference lists.  `outgoing`/`incoming`
hold indices into the owning network's connection list.  Visual and
identity fields (`id`, `x`, `y`, `region_id`, `radius`) are omitted. -/
structure Neuron where
  activity : ℚ
  threshold : ℚ
  potential : ℚ
  refractory : ℤ
  outgoing : List ℕ
  incoming : List ℕ

/-- The neuron state a fresh `Neuron(...)` dataclass starts from:
`activity = 0`, `threshold = 0.5`, `potential = 0`, `refractory = 0`,
empty connection lists. -/
def Neuron.fresh : Neuron :=
  { activity := 0, threshold := 0.5, potential := 0, refractory := 0
    outgoing := [], incoming := [] }

/-- `Neuron.receive_input` (network.py lines 35-39). -/
def Neuron.receiveInput (n : Neuron) (amount weight : ℚ) : Neuron :=
  if 0 < n.refractory then n
  else { n with potential := n.potential + amount * weight }

/-- `Neuron._fire` (network.py lines 59-65): returns the
(connection, strength) pairs and the fired state. -/
def Neuron.fire (n : Neuron) : List (ℕ × ℚ) × Neuron :=
  let n' := { n with activity := 1, potential := 0, refractory := 5 }
  (n'.outgoing.map (fun k => (k, n'.activity)), n')

/-- `Neuron.update` (network.py lines 41-57): refractory decay, then the
threshold test (on the already-decremented refractory counter), then
potential decay. -/
def Neuron.update (n : Neuron) (decayRate : ℚ) : List (ℕ × ℚ) × Neuron :=
  let n1 := if 0 < n.refractory then
      { n with refractory := n.refractory - 1, activity := n.activity * 0.8 }
    else n
  let fired := if n1.threshold ≤ n1.potential ∧ n1.refractory ≤ 0 then n1.fire
    else ([], n1)
  (fired.1, { fired.2 with potential := fired.2.potential * (1 - decayRate) })

/-- `Neuron.stimulate` (network.py lines 67-69): bypasses refractory
gating. -/
def Neuron.stimulate (n : Neuron) (strength : ℚ) : Neuron :=
  { n with potential := n.potential + strength }

/-- `Signal` (network.py lines 72-76). -/
structure Signal where
  progress : ℚ
  strength : ℚ

/-- `Connection` (network.py lines 79-113).  `id` keeps the numeric
counter of the source's `conn_{k}` id string; `fromIdx`/`toIdx` are
arena indices of the two endpoint neurons. -/
structure Connection where
  id : ℕ
  fromIdx : ℕ
  toIdx : ℕ
  weight : ℚ
  activity : ℚ
  signals : List Signal

/-- `Connection.add_signal` (network.py lines 92-95). -/
def Connection.addSignal (c : Connection) (strength : ℚ) : Connection :=
  { c with signals := c.signals ++ [{ progress := 0, strength := strength }]
           activity := min 1 (c.activity + 0.3) }

/-- `Connection.update` (network.py lines 97-113): advance every signal,
split arrived (progress ≥ 1) from remaining, decay `activity`. -/
def Connection.update (c : Connection) (speedMultiplier baseSpeed : ℚ) :
    List Signal × Connection :=
  let advanced := c.signals.map
    (fun s => { s with progress := s.progress + baseSpeed * speedMultiplier })
  let arrived := advanced.filter (fun s => decide (1 ≤ s.progress))
  let remaining := advanced.filter (fun s => !decide (1 ≤ s.progress))
  (arrived, { c with signals := remaining, activity := c.activity * 0.95 })

/-- C5. For every neuron with `0 ≤ activity ≤ 1` and `refractory ≥ 0`,
after any call to `Neuron.update` — any decay rate in `[0,1]`, any
potential and threshold, firing or not — the state again satisfies
`0 ≤ activity ≤ 1` and `refractory ≥ 0`. -/
theorem neuron_update_preserves_invariant (n : Neuron) (decayRate : ℚ)
    (ha0 : 0 ≤ n.activity) (ha1 : n.activity ≤ 1) (hr : 0 ≤ n.refractory)
    (hd0 : 0 ≤ decayRate) (hd1 : decayRate ≤ 1) :
    0 ≤ ((n.update decayRate).2).activity ∧
      ((n.update decayRate).2).activity ≤ 1 ∧
      0 ≤ ((n.update decayRate).2).refractory := by
  simp only [Neuron.update, Neuron.fire]
  split_ifs with h1 h2 h3 <;> refine ⟨?_, ?_, ?_⟩ <;> dsimp only <;> linarith

/-- Witness for `neuron_update_preserves_invariant` at a concrete
neuron and decay rate. -/
theorem neuron_update_preserves_invariant_witness :
    0 ≤ ((Neuron.fresh.update 0.05).2).activity ∧
      ((Neuron.fresh.update 0.05).2).activity ≤ 1 ∧
      0 ≤ ((Neuron.fresh.update 0.05).2).refractory :=
  neuron_update_preserves_invariant Neuron.fresh 0.05
    (by norm_num [Neuron.fresh]) (by norm_num [Neuron.fresh])
    (by norm_num [Neuron.fresh]) (by norm_num) (by norm_num)

/-- Iterate `Connection.update` with `speed_multiplier = 1.0` and the
default `base_speed = 0.02`, keeping only the connection state (the
per-tick loop of the C4 scenario). -/
def afterTicks : ℕ → Connection → Connection
  | 0, c => c
  | k + 1, c => ((afterTicks k c).update 1 0.02).2

/-- The C4 scenario connection: a single signal just added at
progress 0 with strength 1. -/
def c4conn : Connection :=
  { id := 0, fromIdx := 0, toIdx := 1, weight := 1, activity := 0
    signals := [{ progress := 0, strength := 1 }] }

/-- After `k ≤ 49` ticks the C4 signal is still in flight at cumulative
progress exactly `k/50`. -/
theorem afterTicks_c4conn (k : ℕ) (hk : k ≤ 49) :
    afterTicks k c4conn =
      { id := 0, fromIdx := 0, toIdx := 1, weight := 1, activity := 0
        signals := [{ progress := (k : ℚ) / 50, strength := 1 }] } := by
  induction k with
  | zero => norm_num [afterTicks, c4conn]
  | succ m ih =>
    have hm : m ≤ 49 := by omega
    have hle : (m : ℚ) ≤ 48 := by exact_mod_cast (by omega : m ≤ 48)
    have h02 : (0.02 : ℚ) = 1 / 50 := by norm_num
    have hd : decide ((1 : ℚ) ≤ (m : ℚ) / 50 + 0.02 * 1) = false := by
      apply decide_eq_false
      intro hcon
      linarith
    rw [afterTicks, ih hm]
    simp only [Connection.update, List.map, List.filter, hd, Bool.not_false]
    norm_num [Connection.mk.injEq, Signal.mk.injEq]
    ring

/-- C4. A signal added at progress 0 on a connection updated every tick
with `base_speed = 0.02` and `speed_multiplier = 1.0` is still in
flight (cumulative progress `t/50 < 1`, no arrival) after each of the
first 49 updates, and the 50th update — the first at which cumulative
progress reaches `≥ 1.0` — returns it as arrived and removes it from
the signal list. -/
theorem signal_arrives_at_fiftieth_tick :
    (∀ t : ℕ, t ≤ 49 →
        (afterTicks t c4conn).signals = [{ progress := (t : ℚ) / 50, strength := 1 }] ∧
          (t : ℚ) / 50 < 1) ∧
      (∀ t : ℕ, t < 49 → ((afterTicks t c4conn).update 1 0.02).1 = []) ∧
      ((afterTicks 49 c4conn).update 1 0.02).1 = [{ progress := 1, strength := 1 }] ∧
      (afterTicks 50 c4conn).signals = [] := by
  refine ⟨?_, ?_, ?_, ?_⟩
  · intro t ht
    rw [afterTicks_c4conn t ht]
    refine ⟨rfl, ?_⟩
    rw [div_lt_one (by norm_num)]
    exact_mod_cast (by omega : t ≤ 49) |>.trans_lt (by norm_num)
  · intro t ht
    rw [afterTicks_c4conn t (by omega)]
    have hle : (t : ℚ) ≤ 48 := by exact_mod_cast (by omega : t ≤ 48)
    have h02 : (0.02 : ℚ) = 1 / 50 := by norm_num
    have hd : decide ((1 : ℚ) ≤ (t : ℚ) / 50 + 0.02 * 1) = false := by
      apply decide_eq_false
      intro hcon
      linarith
    simp only [Connection.update, List.map, List.filter, hd]
  · rw [afterTicks_c4conn 49 (by norm_num)]
    norm_num [Connection.update]
  · rw [show (50 : ℕ) = 49 + 1 from rfl, afterTicks,
      afterTicks_c4conn 49 (by norm_num)]
    norm_num [Connection.update]

/-- Witness for `signal_arrives_at_fiftieth_tick`, instantiating its
quantified parts at ticks 3 and 7. -/
theorem signal_arrives_at_fiftieth_tick_witness :
    (afterTicks 3 c4conn).signals = [{ progress := (3 : ℚ) / 50, strength := 1 }] ∧
      ((afterTicks 7 c4conn).update 1 0.02).1 = [] :=
  ⟨(signal_arrives_at_fiftieth_tick.1 3 (by norm_num)).1,
    signal_arrives_at_fiftieth_tick.2.1 7 (by norm_num)⟩

theorem modifyIdx_length {α : Type} (f : α → α) (i : ℕ) (l : List α) :
    (modifyIdx f i l).length = l.length := by
  induction l generalizing i with
  | nil => cases i <;> rfl
  | cons x xs ih => cases i <;> simp [modifyIdx, ih]

theorem getD_modifyIdx_self {α : Type} (f : α → α) (i : ℕ) (l : List α)
    (d : α) (h : i < l.length) :
    (modifyIdx f i l).getD i d = f (l.getD i d) := by
  induction l generalizing i with
  | nil => simp at h
  | cons x xs ih =>
    cases i with
    | zero => rfl
    | succ j => simpa [modifyIdx] using ih j (by simpa using h)

theorem getD_modifyIdx_ne {α : Type} (f : α → α) (i j : ℕ) (l : List α)
    (d : α) (h : j ≠ i) :
    (modifyIdx f i l).getD j d = l.getD j d := by
  induction l generalizing i j with
  | nil => cases i <;> rfl
  | cons x xs ih =>
    cases i with
    | zero =>
      cases j with
      | zero => exact absurd rfl h
      | succ m => rfl
    | succ k =>
      cases j with
      | zero => rfl
      | succ m => simpa [modifyIdx] using ih k m (by omega)

theorem mem_modifyIdx {α : Type} {f : α → α} {i : ℕ} {l : List α} {x : α}
    (hx : x ∈ modifyIdx f i l) : x ∈ l ∨ ∃ y ∈ l, x = f y := by
  induction l generalizing i with
  | nil => simp [modifyIdx] at hx
  | cons a as ih =>
    cases i with
    | zero =>
      rcases List.mem_cons.mp hx with h | h
      · exact Or.inr ⟨a, List.mem_cons_self a as, h⟩
      · exact Or.inl (List.mem_cons_of_mem a h)
    | succ k =>
      rcases List.mem_cons.mp hx with h | h
      · exact Or.inl (h ▸ List.mem_cons_self a as)
      · rcases ih h with h1 | ⟨y, hy, hxy⟩
        · exact Or.inl (List.mem_cons_of_mem a h1)
        · exact Or.inr ⟨y, List.mem_cons_of_mem a hy, hxy⟩

/-- `Region` (network.py lines 116-181): neurons held as arena indices
into the owning network's neuron list.  Display metadata and resolved
geometry (`name`, `color`, positions, radius) are omitted. -/
structure Region where
  id : String
  neuronIdxs : List ℕ
  totalActivity : ℚ

/-- The inner loop of `Region.update` (network.py lines 162-173): update
each neuron in order, accumulating the just-updated neuron's
activity. -/
def regionNeuronLoop : List ℕ → List Neuron → ℚ → List Neuron × ℚ
  | [], ns, total => (ns, total)
  | i :: rest, ns, total =>
    let ns' := modifyIdx (fun n => (n.update 0.05).2) i ns
    regionNeuronLoop rest ns' (total + (ns'.getD i Neuron.fresh).activity)

/-- `Region.update` (network.py lines 162-173): update every owned
neuron and store the mean activity (the zero sum is kept as-is when the
region is empty, guarding the division). -/
def Region.update (r : Region) (ns : List Neuron) : Region × List Neuron :=
  let p := regionNeuronLoop r.neuronIdxs ns 0
  let ta := if r.neuronIdxs = [] then p.2 else p.2 / (r.neuronIdxs.length : ℚ)
  ({ r with totalActivity := ta }, p.1)

/-- `Network` (network.py lines 184-349): owns the region list (the
Python dict in insertion order), the authoritative connection list, the
flat `all_neurons` arena and the global counters.  The never-assigned
`hub` field and the unused `firing_rate` are omitted. -/
structure Network where
  regions : List Region
  connections : List Connection
  neurons : List Neuron
  totalSignals : ℕ
  activeNeurons : ℕ

/-- Default connection used only as the `List.getD` fallback. -/
def cdflt : Connection :=
  { id := 0, fromIdx := 0, toIdx := 0, weight := 1, activity := 0, signals := [] }

/-- Phase 1 of `Network.update` (network.py lines 305-309): advance each
connection in order and deliver its arrived signals to the destination
neuron via `receive_input(strength, weight)`. -/
def connPhase : List Connection → List Neuron → ℚ → List Connection × List Neuron
  | [], ns, _ => ([], ns)
  | c :: rest, ns, mult =>
    let p := c.update mult 0.02
    let ns' := p.1.foldl
      (fun a s => modifyIdx (fun n => n.receiveInput s.strength c.weight) c.toIdx a) ns
    let q := connPhase rest ns' mult
    (p.2 :: q.1, q.2)

/-- The signal-emission loop over one firing neuron's outgoing
connections (network.py lines 316-318), also counting the
`total_signals` increments. -/
def emitOutgoing (act : ℚ) : List ℕ → List Connection → ℕ → List Connection × ℕ
  | [], cs, t => (cs, t)
  | k :: rest, cs, t =>
    emitOutgoing act rest (modifyIdx (fun c => c.addSignal act) k cs) (t + 1)

/-- The per-region emission loop of `Network.update` (network.py lines
314-318): every neuron of the region whose (just updated) activity
exceeds 0.9 emits a signal on each outgoing connection. -/
def emitRegion : List Neuron → List ℕ → List Connection → ℕ → List Connection × ℕ
  | _, [], cs, t => (cs, t)
  | ns, i :: rest, cs, t =>
    let n := ns.getD i Neuron.fresh
    if 0.9 < n.activity then
      let p := emitOutgoing n.activity n.outgoing cs t
      emitRegion ns rest p.1 p.2
    else emitRegion ns rest cs t

/-- Phase 2 of `Network.update` (network.py lines 311-318): per region,
update the region (cascading to its neurons) and then run the emission
loop, before moving to the next region. -/
def regionPhase : List Region → List Neuron → List Connection → ℕ →
    List Region × List Neuron × List Connection × ℕ
  | [], ns, cs, t => ([], ns, cs, t)
  | r :: rest, ns, cs, t =>
    let p := r.update ns
    let q := emitRegion p.2 r.neuronIdxs cs t
    let w := regionPhase rest p.2 q.1 q.2
    (p.1 :: w.1, w.2)

/-- `Network.update` (network.py lines 303-321): connections first
(with delivery), then regions (neuron updates followed by emission),
then the `active_neurons` statistic. -/
def Network.update (net : Network) (speedMultiplier : ℚ) : Network :=
  let p := connPhase net.connections net.neurons speedMultiplier
  let q := regionPhase net.regions p.2 p.1 net.totalSignals
  { net with regions := q.1, neurons := q.2.1, connections := q.2.2.1
             totalSignals := q.2.2.2
             activeNeurons := q.2.1.countP (fun n => decide (0.1 < n.activity)) }

theorem connPhase_length (cs : List Connection) (ns : List Neuron) (mult : ℚ) :
    (connPhase cs ns mult).1.length = cs.length := by
  induction cs generalizing ns with
  | nil => rfl
  | cons c rest ih => simp [connPhase, ih]

theorem connPhase_getD (cs : List Connection) (ns : List Neuron) (mult : ℚ)
    (i : ℕ) (h : i < cs.length) :
    (connPhase cs ns mult).1.getD i cdflt = ((cs.getD i cdflt).update mult 0.02).2 := by
  induction cs generalizing ns i with
  | nil => simp at h
  | cons c rest ih =>
    cases i with
    | zero => rfl
    | succ j =>
      have := ih (((c.update mult 0.02).1).foldl
        (fun a s => modifyIdx (fun n => n.receiveInput s.strength c.weight) c.toIdx a) ns)
        j (by simpa using h)
      simpa [connPhase] using this

/-- `cur` differs from `base` only by freshly emitted signals: same
length, same weights, and each connection's signal list extended only
by signals still at progress 0. -/
def FreshOnly (base cur : List Connection) : Prop :=
  cur.length = base.length ∧
  ∀ i, i < base.length →
    (cur.getD i cdflt).weight = (base.getD i cdflt).weight ∧
    ∃ fresh : List Signal,
      (cur.getD i cdflt).signals = (base.getD i cdflt).signals ++ fresh ∧
      ∀ s ∈ fresh, s.progress = 0

theorem freshOnly_refl (cs : List Connection) : FreshOnly cs cs :=
  ⟨rfl, fun i _ => ⟨rfl, [], by simp, by simp⟩⟩

theorem freshOnly_trans {a b c : List Connection}
    (h1 : FreshOnly a b) (h2 : FreshOnly b c) : FreshOnly a c := by
  refine ⟨h2.1.trans h1.1, fun i hi => ?_⟩
  have hb := h1.2 i hi
  have hc := h2.2 i (h1.1 ▸ hi)
  refine ⟨hc.1.trans hb.1, ?_⟩
  obtain ⟨f1, hf1, hp1⟩ := hb.2
  obtain ⟨f2, hf2, hp2⟩ := hc.2
  refine ⟨f1 ++ f2, ?_, ?_⟩
  · rw [hf2, hf1, List.append_assoc]
  · intro s hs
    rcases List.mem_append.mp hs with h | h
    · exact hp1 s h
    · exact hp2 s h

theorem freshOnly_addSignal (cs : List Connection) (k : ℕ) (a : ℚ) :
    FreshOnly cs (modifyIdx (fun c => c.addSignal a) k cs) := by
  refine ⟨modifyIdx_length _ _ _, fun i hi => ?_⟩
  by_cases hik : i = k
  · subst hik
    rw [getD_modifyIdx_self _ _ _ _ hi]
    exact ⟨rfl, [{ progress := 0, strength := a }], rfl, by simp [Connection.addSignal]⟩
  · rw [getD_modifyIdx_ne _ _ _ _ _ hik]
    exact ⟨rfl, [], by simp, by simp⟩

theorem freshOnly_emitOutgoing (a : ℚ) (ks : List ℕ) (cs : List Connection) (t : ℕ) :
    FreshOnly cs (emitOutgoing a ks cs t).1 := by
  induction ks generalizing cs t with
  | nil => exact freshOnly_refl cs
  | cons k rest ih =>
    exact freshOnly_trans (freshOnly_addSignal cs k a)
      (by simpa [emitOutgoing] using ih (modifyIdx (fun c => c.addSignal a) k cs) (t + 1))

theorem freshOnly_emitRegion (ns : List Neuron) (idxs : List ℕ)
    (cs : List Connection) (t : ℕ) :
    FreshOnly cs (emitRegion ns idxs cs t).1 := by
  induction idxs generalizing cs t with
  | nil => exact freshOnly_refl cs
  | cons i rest ih =>
    rw [emitRegion]
    split_ifs with h
    · exact freshOnly_trans
        (freshOnly_emitOutgoing (ns.getD i Neuron.fresh).activity
          (ns.getD i Neuron.fresh).outgoing cs t)
        (ih _ _)
    · exact ih cs t

theorem freshOnly_regionPhase (rs : List Region) (ns : List Neuron)
    (cs : List Connection) (t : ℕ) :
    FreshOnly cs (regionPhase rs ns cs t).2.2.1 := by
  induction rs generalizing ns cs t with
  | nil => exact freshOnly_refl cs
  | cons r rest ih =>
    have step := freshOnly_emitRegion (r.update ns).2 r.neuronIdxs cs t
    have tail := ih (r.update ns).2
      (emitRegion (r.update ns).2 r.neuronIdxs cs t).1
      (emitRegion (r.update ns).2 r.neuronIdxs cs t).2
    exact freshOnly_trans step tail

theorem network_update_connections_length (net : Network) (mult : ℚ) :
    (net.update mult).connections.length = net.connections.length := by
  have h1 := (freshOnly_regionPhase net.regions
    (connPhase net.connections net.neurons mult).2
    (connPhase net.connections net.neurons mult).1 net.totalSignals).1
  have h2 := connPhase_length net.connections net.neurons mult
  simpa [Network.update] using h1.trans h2

/-- C10. The per-tick simulation step never mutates weights: for every
network state and speed multiplier, `Network.update` leaves every
connection's weight unchanged (weights change only through the learning
subsystem). -/
theorem network_update_never_changes_weights (net : Network) (mult : ℚ) :
    (net.update mult).connections.map Connection.weight
      = net.connections.map Connection.weight := by
  have hfo := freshOnly_regionPhase net.regions
    (connPhase net.connections net.neurons mult).2
    (connPhase net.connections net.neurons mult).1 net.totalSignals
  have hclen := connPhase_length net.connections net.neurons mult
  have hlen : (net.update mult).connections.length = net.connections.length :=
    network_update_connections_length net mult
  apply List.ext_getElem (by simpa using hlen)
  intro i h1 h2
  simp only [List.getElem_map]
  rw [← List.getD_eq_getElem ((net.update mult).connections) cdflt (by simpa using h1),
    ← List.getD_eq_getElem net.connections cdflt (by simpa using h2)]
  have hup : (net.update mult).connections
      = (regionPhase net.regions (connPhase net.connections net.neurons mult).2
          (connPhase net.connections net.neurons mult).1 net.totalSignals).2.2.1 := rfl
  have hi' : i < (connPhase net.connections net.neurons mult).1.length := by
    rw [hclen]
    simpa [hlen] using h1
  have hw := (hfo.2 i hi').1
  rw [hup, hw, connPhase_getD net.connections net.neurons mult i (hclen ▸ hi')]
  rfl

/-- A two-neuron network exhibiting same-tick delivery: the destination
neuron sits just below threshold (potential 0.4 < 0.5) and the single
connection carries a signal at progress 0.99 that arrives on the next
update. -/
def demoNet : Network :=
  { regions := [{ id := "r", neuronIdxs := [0, 1], totalActivity := 0 }]
    connections := [{ id := 0, fromIdx := 0, toIdx := 1, weight := 1, activity := 0
                      signals := [{ progress := 0.99, strength := 0.2 }] }]
    neurons :=
      [{ activity := 0, threshold := 0.5, potential := 0, refractory := 0
         outgoing := [0], incoming := [] },
       { activity := 0, threshold := 0.5, potential := 0.4, refractory := 0
         outgoing := [], incoming := [0] }]
    totalSignals := 0
    activeNeurons := 0 }

/-- C2. Step ordering of `Network.update`: (general part) after one
update every connection's signal list is exactly the advanced remainder
of its pre-tick signals — computed by `Connection.update` before any
neuron state changed — followed only by freshly emitted signals still
at progress 0; emission thus happens strictly after signal advancement,
a signal emitted in a tick can never arrive in that same tick, and
arrivals delivered in a tick stem only from pre-tick signals (one-tick
latency beyond travel time).  (Concrete part) arrivals are delivered
strictly before the neuron update of the same tick: in `demoNet` the
destination neuron starts below threshold (potential 0.4 < 0.5) and
fires in the very tick its incoming signal arrives. -/
theorem network_update_step_ordering :
    (∀ (net : Network) (mult : ℚ) (i : ℕ), i < net.connections.length →
      ∃ fresh : List Signal,
        ((net.update mult).connections.getD i cdflt).signals
            = (((net.connections.getD i cdflt).update mult 0.02).2).signals ++ fresh ∧
          ∀ s ∈ fresh, s.progress = 0) ∧
      ((demoNet.update 1).neurons.getD 1 Neuron.fresh).activity = 1 ∧
      ((demoNet.update 1).neurons.getD 1 Neuron.fresh).refractory = 5 := by
  constructor
  · intro net mult i hi
    have hfo := freshOnly_regionPhase net.regions
      (connPhase net.connections net.neurons mult).2
      (connPhase net.connections net.neurons mult).1 net.totalSignals
    have hclen := connPhase_length net.connections net.neurons mult
    have hi' : i < (connPhase net.connections net.neurons mult).1.length := by
      rw [hclen]; exact hi
    obtain ⟨fresh, hf, hp⟩ := (hfo.2 i hi').2
    refine ⟨fresh, ?_, hp⟩
    have hup : (net.update mult).connections
        = (regionPhase net.regions (connPhase net.connections net.neurons mult).2
            (connPhase net.connections net.neurons mult).1 net.totalSignals).2.2.1 := rfl
    rw [hup, hf, connPhase_getD net.connections net.neurons mult i hi]
  · constructor <;>
      norm_num [demoNet, Network.update, connPhase, Connection.update, regionPhase,
        Region.update, regionNeuronLoop, emitRegion, emitOutgoing, modifyIdx,
        Neuron.update, Neuron.fire, Neuron.receiveInput, Neuron.fresh, List.foldl]

/-- Witness for `network_update_step_ordering`, applying its general
part to `demoNet` at connection index 0. -/
theorem network_update_step_ordering_witness :
    ∃ fresh : List Signal,
      ((demoNet.update 1).connections.getD 0 cdflt).signals
          = (((demoNet.connections.getD 0 cdflt).update 1 0.02).2).signals ++ fresh ∧
        ∀ s ∈ fresh, s.progress = 0 :=
  network_update_step_ordering.1 demoNet 1 0 (by norm_num [demoNet])

/-- Lookup with default in an association list (Python's
`dict.get(key, default)`). -/
def dictGetD {κ : Type} [BEq κ] (l : List (κ × ℚ)) (k : κ) (d : ℚ) : ℚ :=
  match l.find? (fun p => p.1 == k) with
  | some p => p.2
  | none => d

/-- `CentralHub` (central_hub.py lines 19-124): the readout vector and
the modulation-weight mapping.  Geometry, the hub's own neurons and the
bookkeeping `region_connections` are omitted (unused by the modelled
methods). -/
structure CentralHub where
  outputSize : ℕ
  state : List ℚ
  modulationWeights : List (String × ℚ)

/-- Python's `max(self.state) if self.state else 1.0`
(central_hub.py line 151). -/
def listMax1 : List ℚ → ℚ
  | [] => 1
  | h :: t => t.foldl max h

/-- `CentralHub.aggregate` (central_hub.py lines 131-155): weight each
region's `total_activity` by its modulation weight (default 1.0),
distribute round-robin into an `output_size`-length accumulator,
normalize by `max(max_entry, 1)` with a cap of 1.0 when the maximum is
positive.  Python raises `ZeroDivisionError` at `i % 0` when
`output_size = 0` and the region mapping is nonempty; that path is
`none`. -/
def CentralHub.aggregate (hub : CentralHub) (regions : List Region) :
    Option (List ℚ × CentralHub) :=
  let regionActivities := regions.map
    (fun r => r.totalActivity * dictGetD hub.modulationWeights r.id 1)
  if hub.outputSize = 0 ∧ regionActivities ≠ [] then none
  else
    let state1 := regionActivities.enum.foldl
      (fun st p => modifyIdx (fun v => v + p.2) (p.1 % hub.outputSize) st)
      (List.replicate hub.outputSize 0)
    let state2 := if 0 < listMax1 state1 then
        state1.map (fun v => min 1 (v / max (listMax1 state1) 1))
      else state1
    some (state2, { hub with state := state2 })

theorem modifyIdx_forall {α : Type} {P : α → Prop} {f : α → α} {i : ℕ}
    {l : List α} (hf : ∀ x ∈ l, P x → P (f x)) (hl : ∀ x ∈ l, P x) :
    ∀ x ∈ modifyIdx f i l, P x := by
  intro x hx
  rcases mem_modifyIdx hx with h | ⟨y, hy, rfl⟩
  · exact hl x h
  · exact hf y hy (hl y hy)

theorem distribute_length (acts : List (ℕ × ℚ)) (n : ℕ) (st : List ℚ) :
    (acts.foldl (fun s p => modifyIdx (fun v => v + p.2) (p.1 % n) s) st).length
      = st.length := by
  induction acts generalizing st with
  | nil => rfl
  | cons a rest ih =>
    simpa [List.foldl, modifyIdx_length] using
      (ih (modifyIdx (fun v => v + a.2) (a.1 % n) st)).trans (modifyIdx_length _ _ _)

theorem distribute_preserve {P : ℚ → Prop} (acts : List (ℕ × ℚ)) (n : ℕ)
    (st : List ℚ) (hstep : ∀ a ∈ acts, ∀ v, P v → P (v + a.2))
    (hst : ∀ x ∈ st, P x) :
    ∀ x ∈ acts.foldl (fun s p => modifyIdx (fun v => v + p.2) (p.1 % n) s) st, P x := by
  induction acts generalizing st with
  | nil => exact hst
  | cons a rest ih =>
    exact ih (modifyIdx (fun v => v + a.2) (a.1 % n) st)
      (fun b hb v hv => hstep b (List.mem_cons_of_mem a hb) v hv)
      (modifyIdx_forall (fun x _ hx => hstep a (List.mem_cons_self a rest) x hx) hst)

theorem foldl_max_init_le (l : List ℚ) (a : ℚ) : a ≤ l.foldl max a := by
  induction l generalizing a with
  | nil => exact le_refl a
  | cons x xs ih => exact le_trans (le_max_left a x) (ih (max a x))

theorem mem_le_foldl_max (l : List ℚ) (a : ℚ) : ∀ x ∈ l, x ≤ l.foldl max a := by
  induction l generalizing a with
  | nil => intro x hx; simp at hx
  | cons y ys ih =>
    intro x hx
    rw [List.foldl_cons]
    rcases List.mem_cons.mp hx with rfl | h
    · exact le_trans (le_max_right a x) (foldl_max_init_le ys (max a x))
    · exact ih (max a y) x h

theorem foldl_max_le {b : ℚ} (l : List ℚ) (a : ℚ) (ha : a ≤ b)
    (hl : ∀ x ∈ l, x ≤ b) : l.foldl max a ≤ b := by
  induction l generalizing a with
  | nil => exact ha
  | cons y ys ih =>
    rw [List.foldl_cons]
    exact ih (max a y) (max_le ha (hl y (List.mem_cons_self y ys)))
      (fun x hx => hl x (List.mem_cons_of_mem y hx))

theorem le_listMax1 (l : List ℚ) : ∀ x ∈ l, x ≤ listMax1 l := by
  cases l with
  | nil => intro x hx; simp at hx
  | cons h t =>
    intro x hx
    rcases List.mem_cons.mp hx with rfl | hxt
    · exact foldl_max_init_le t x
    · exact mem_le_foldl_max t h x hxt

theorem listMax1_le {b : ℚ} (l : List ℚ) (hne : l ≠ []) (hl : ∀ x ∈ l, x ≤ b) :
    listMax1 l ≤ b := by
  cases l with
  | nil => exact absurd rfl hne
  | cons h t =>
    exact foldl_max_le t h (hl h (List.mem_cons_self h t))
      (fun x hx => hl x (List.mem_cons_of_mem h hx))

theorem dictGetD_nonneg {κ : Type} [BEq κ] (l : List (κ × ℚ)) (k : κ)
    (hw : ∀ p ∈ l, (0.1 : ℚ) ≤ p.2 ∧ p.2 ≤ 2) : 0 ≤ dictGetD l k 1 := by
  cases hfind : l.find? (fun p => p.1 == k) with
  | none => norm_num [dictGetD, hfind]
  | some p =>
    have hp := List.mem_of_find?_eq_some hfind
    have h1 := (hw p hp).1
    simp only [dictGetD, hfind]
    linarith

/-- C3. With every region activity `≥ 0` and every modulation weight in
`[0.1, 2.0]` (missing regions defaulting to weight 1.0) and a positive
`output_size` (Python raises `ZeroDivisionError` at `i % 0` otherwise),
`CentralHub.aggregate` succeeds and returns a vector that is
element-wise in `[0, 1]`; when all region activities are 0, the
returned vector and the stored `state` are the all-zero vector of
length `output_size`. -/
theorem aggregate_output_in_unit_interval (hub : CentralHub) (regions : List Region)
    (hpos : 0 < hub.outputSize)
    (hact : ∀ r ∈ regions, 0 ≤ r.totalActivity)
    (hw : ∀ p ∈ hub.modulationWeights, (0.1 : ℚ) ≤ p.2 ∧ p.2 ≤ 2) :
    ∃ v hub', hub.aggregate regions = some (v, hub') ∧
      (∀ x ∈ v, 0 ≤ x ∧ x ≤ 1) ∧
      ((∀ r ∈ regions, r.totalActivity = 0) →
        v = List.replicate hub.outputSize 0 ∧
          hub'.state = List.replicate hub.outputSize 0) := by
  have hcond : ¬ (hub.outputSize = 0 ∧
      regions.map (fun r => r.totalActivity * dictGetD hub.modulationWeights r.id 1) ≠ []) :=
    fun hc => absurd hc.1 (Nat.pos_iff_ne_zero.mp hpos)
  simp only [CentralHub.aggregate]
  rw [if_neg hcond]
  have hactsnn : ∀ a ∈ regions.map
      (fun r => r.totalActivity * dictGetD hub.modulationWeights r.id 1), 0 ≤ a := by
    intro a ha
    obtain ⟨r, hr, rfl⟩ := List.mem_map.mp ha
    exact mul_nonneg (hact r hr) (dictGetD_nonneg _ _ hw)
  have hnn : ∀ x ∈ (regions.map
        (fun r => r.totalActivity * dictGetD hub.modulationWeights r.id 1)).enum.foldl
      (fun st p => modifyIdx (fun v => v + p.2) (p.1 % hub.outputSize) st)
      (List.replicate hub.outputSize 0), 0 ≤ x := by
    refine distribute_preserve _ _ _ ?_ ?_
    · intro a ha v hv
      have haa : 0 ≤ a.2 := by
        apply hactsnn
        have := List.mem_map_of_mem Prod.snd ha
        rwa [List.enum_map_snd] at this
      linarith
    · intro x hx
      rw [List.eq_of_mem_replicate hx]
  have hlen : ((regions.map
        (fun r => r.totalActivity * dictGetD hub.modulationWeights r.id 1)).enum.foldl
      (fun st p => modifyIdx (fun v => v + p.2) (p.1 % hub.outputSize) st)
      (List.replicate hub.outputSize 0)).length = hub.outputSize := by
    rw [distribute_length, List.length_replicate]
  refine ⟨_, _, rfl, ?_, ?_⟩
  · intro x hx
    by_cases hpos' : 0 < listMax1 ((regions.map
        (fun r => r.totalActivity * dictGetD hub.modulationWeights r.id 1)).enum.foldl
      (fun st p => modifyIdx (fun v => v + p.2) (p.1 % hub.outputSize) st)
      (List.replicate hub.outputSize 0))
    · rw [if_pos hpos'] at hx
      obtain ⟨y, hy, rfl⟩ := List.mem_map.mp hx
      have hy0 := hnn y hy
      have hm1 : (1 : ℚ) ≤ max (listMax1 ((regions.map
          (fun r => r.totalActivity * dictGetD hub.modulationWeights r.id 1)).enum.foldl
        (fun st p => modifyIdx (fun v => v + p.2) (p.1 % hub.outputSize) st)
        (List.replicate hub.outputSize 0))) 1 := le_max_right _ 1
      constructor
      · exact le_min (by norm_num) (div_nonneg hy0 (by linarith))
      · exact min_le_left 1 _
    · rw [if_neg hpos'] at hx
      have h1 := hnn x hx
      have h2 := le_listMax1 _ x hx
      push_neg at hpos'
      exact ⟨h1, by linarith⟩
  · intro hzero
    have hz : ∀ x ∈ (regions.map
          (fun r => r.totalActivity * dictGetD hub.modulationWeights r.id 1)).enum.foldl
        (fun st p => modifyIdx (fun v => v + p.2) (p.1 % hub.outputSize) st)
        (List.replicate hub.outputSize 0), x = 0 := by
      refine distribute_preserve _ _ _ ?_ ?_
      · intro a ha v hv
        have haa : a.2 = 0 := by
          have hmem : a.2 ∈ regions.map
              (fun r => r.totalActivity * dictGetD hub.modulationWeights r.id 1) := by
            have := List.mem_map_of_mem Prod.snd ha
            rwa [List.enum_map_snd] at this
          obtain ⟨r, hr, hra⟩ := List.mem_map.mp hmem
          rw [← hra, hzero r hr, zero_mul]
        rw [haa, hv, add_zero]
      · intro x hx
        exact List.eq_of_mem_replicate hx
    have hne : (regions.map
          (fun r => r.totalActivity * dictGetD hub.modulationWeights r.id 1)).enum.foldl
        (fun st p => modifyIdx (fun v => v + p.2) (p.1 % hub.outputSize) st)
        (List.replicate hub.outputSize 0) ≠ [] := by
      intro hcon
      rw [hcon] at hlen
      simp at hlen
      omega
    have hmax0 : ¬ 0 < listMax1 ((regions.map
          (fun r => r.totalActivity * dictGetD hub.modulationWeights r.id 1)).enum.foldl
        (fun st p => modifyIdx (fun v => v + p.2) (p.1 % hub.outputSize) st)
        (List.replicate hub.outputSize 0)) := by
      have hub2 := listMax1_le _ hne (fun x hx => le_of_eq (hz x hx))
      linarith
    have hrep : (regions.map
          (fun r => r.totalActivity * dictGetD hub.modulationWeights r.id 1)).enum.foldl
        (fun st p => modifyIdx (fun v => v + p.2) (p.1 % hub.outputSize) st)
        (List.replicate hub.outputSize 0) = List.replicate hub.outputSize 0 :=
      List.eq_replicate.mpr ⟨hlen, hz⟩
    rw [if_neg hmax0]
    exact ⟨hrep, hrep⟩

/-- Witness for `aggregate_output_in_unit_interval` at a concrete hub
and region mapping. -/
theorem aggregate_output_in_unit_interval_witness :
    ∃ v hub',
      CentralHub.aggregate
          { outputSize := 4, state := [0, 0, 0, 0]
            modulationWeights := [("frontal", 1)] }
          [{ id := "frontal", neuronIdxs := [], totalActivity := 1/2 }]
        = some (v, hub') ∧
      (∀ x ∈ v, 0 ≤ x ∧ x ≤ 1) ∧
      ((∀ r ∈ [{ id := "frontal", neuronIdxs := [], totalActivity := (1/2 : ℚ) }],
          Region.totalActivity r = 0) →
        v = List.replicate 4 0 ∧ hub'.state = List.replicate 4 0) :=
  aggregate_output_in_unit_interval
    { outputSize := 4, state := [0, 0, 0, 0], modulationWeights := [("frontal", 1)] }
    [{ id := "frontal", neuronIdxs := [], totalActivity := 1/2 }]
    (by norm_num)
    (by intro r hr; rcases List.mem_singleton.mp hr with rfl; norm_num)
    (by intro p hp; rcases List.mem_singleton.mp hp with rfl; norm_num)

theorem getD_map_lt {α β : Type} (f : α → β) (l : List α) (i : ℕ) (d : β)
    (d' : α) (h : i < l.length) :
    (l.map f).getD i d = f (l.getD i d') := by
  rw [List.getD_eq_getElem _ _ (by simpa using h), List.getD_eq_getElem _ _ h,
    List.getElem_map]

theorem getD_mem {α : Type} (l : List α) (i : ℕ) (d : α) (h : i < l.length) :
    l.getD i d ∈ l := by
  rw [List.getD_eq_getElem _ _ h]
  exact List.getElem_mem h

/-- `HebbianLearning` (learning.py lines 47-92): configuration plus the
`enabled` flag inherited from `LearningAlgorithm`.  The back-reference
to the network is passed explicitly to `update`. -/
structure HebbianLearning where
  learningRate : ℚ
  decayRate : ℚ
  maxWeight : ℚ
  minWeight : ℚ
  enabled : Bool

/-- `HebbianLearning.__init__` (learning.py lines 56-67, base class
lines 23-26): stores the given parameters exactly as passed — no
validation, no clamping, no failure path exists — and starts
disabled. -/
def HebbianLearning.init (learningRate decayRate maxWeight minWeight : ℚ) :
    HebbianLearning :=
  { learningRate := learningRate, decayRate := decayRate
    maxWeight := maxWeight, minWeight := minWeight, enabled := false }

/-- `HebbianLearning.update` (learning.py lines 69-88): no-op when
disabled; otherwise, per connection, add `η·pre·post`, subtract
`decay_rate·(weight − 1)`, and clamp into
`[min_weight, max_weight]`. -/
def HebbianLearning.update (h : HebbianLearning) (net : Network) : Network :=
  if !h.enabled then net
  else
    { net with connections := net.connections.map (fun c =>
        let pre := (net.neurons.getD c.fromIdx Neuron.fresh).activity
        let post := (net.neurons.getD c.toIdx Neuron.fresh).activity
        let delta := h.learningRate * pre * post
        let decay := h.decayRate * (c.weight - 1)
        { c with weight := max h.minWeight (min h.maxWeight (c.weight + delta - decay)) }) }

/-- `RewardBasedLearning` (learning.py lines 95-150): configuration,
`enabled` flag and the eligibility-trace mapping keyed by connection
id. -/
structure RewardBasedLearning where
  learningRate : ℚ
  traceDecay : ℚ
  maxWeight : ℚ
  minWeight : ℚ
  enabled : Bool
  traces : List (ℕ × ℚ)

/-- `RewardBasedLearning.__init__` (learning.py lines 103-119): stores
the parameters exactly as passed, starts disabled, and initializes one
zero trace per existing connection. -/
def RewardBasedLearning.init (net : Network)
    (learningRate traceDecay maxWeight minWeight : ℚ) : RewardBasedLearning :=
  { learningRate := learningRate, traceDecay := traceDecay
    maxWeight := maxWeight, minWeight := minWeight, enabled := false
    traces := net.connections.map (fun c => (c.id, 0)) }

/-- `RewardBasedLearning.apply_reward` (learning.py lines 134-150):
no-op when disabled; otherwise add `η·trace·reward` to each weight,
clamp into bounds, then halve every stored trace. -/
def RewardBasedLearning.applyReward (r : RewardBasedLearning) (net : Network)
    (reward : ℚ) : Network × RewardBasedLearning :=
  if !r.enabled then (net, r)
  else
    let net' := { net with connections := net.connections.map (fun c =>
        let trace := dictGetD r.traces c.id 0
        let delta := r.learningRate * trace * reward
        { c with weight := max r.minWeight (min r.maxWeight (c.weight + delta)) }) }
    (net', { r with traces := r.traces.map (fun p => (p.1, p.2 * 0.5)) })

/-- C1 counterexample: `HebbianLearning.__init__` called with inverted
weight bounds (`max_weight = 0.1 < min_weight = 2`) completes and
stores the inverted bounds verbatim — nothing fails fast, nothing is
clamped (the constructor, embedded from the source, is a total function
with no failure path). -/
theorem construction_accepts_inverted_bounds :
    (HebbianLearning.init 0.01 0.001 0.1 2).maxWeight
        < (HebbianLearning.init 0.01 0.001 0.1 2).minWeight ∧
      (HebbianLearning.init 0.01 0.001 0.1 2).maxWeight = 0.1 ∧
      (HebbianLearning.init 0.01 0.001 0.1 2).minWeight = 2 := by
  norm_num [HebbianLearning.init]

/-- C1 (amended). Construction never validates: both learning
constructors accept every numeric parameter combination — including
inverted weight bounds and out-of-range rates — storing each value
exactly as given (no error, no clamping), and start disabled. -/
theorem construction_stores_parameters_unvalidated
    (lr dr maxW minW td : ℚ) (net : Network) :
    (HebbianLearning.init lr dr maxW minW).learningRate = lr ∧
      (HebbianLearning.init lr dr maxW minW).decayRate = dr ∧
      (HebbianLearning.init lr dr maxW minW).maxWeight = maxW ∧
      (HebbianLearning.init lr dr maxW minW).minWeight = minW ∧
      (HebbianLearning.init lr dr maxW minW).enabled = false ∧
      (RewardBasedLearning.init net lr td maxW minW).learningRate = lr ∧
      (RewardBasedLearning.init net lr td maxW minW).traceDecay = td ∧
      (RewardBasedLearning.init net lr td maxW minW).maxWeight = maxW ∧
      (RewardBasedLearning.init net lr td maxW minW).minWeight = minW ∧
      (RewardBasedLearning.init net lr td maxW minW).enabled = false :=
  ⟨rfl, rfl, rfl, rfl, rfl, rfl, rfl, rfl, rfl, rfl⟩

/-- C6. `HebbianLearning.update` leaves the network untouched when
disabled; when enabled with the default parameters and
`pre = post = 1.0` on every connection, each update strictly increases
every weight starting in `[min_weight, max_weight)` and no weight ever
exceeds `max_weight`. -/
theorem hebbian_update_weight_monotonicity (h : HebbianLearning) (net : Network) :
    (h.enabled = false → h.update net = net) ∧
      (h.enabled = true → h.learningRate = 0.01 → h.decayRate = 0.001 →
        h.maxWeight = 2 → h.minWeight = 0.1 →
        (∀ c ∈ net.connections,
          (net.neurons.getD c.fromIdx Neuron.fresh).activity = 1 ∧
            (net.neurons.getD c.toIdx Neuron.fresh).activity = 1) →
        ∀ i, i < net.connections.length →
          ((h.update net).connections.getD i cdflt).weight ≤ 2 ∧
            (0.1 ≤ (net.connections.getD i cdflt).weight →
              (net.connections.getD i cdflt).weight < 2 →
              (net.connections.getD i cdflt).weight
                < ((h.update net).connections.getD i cdflt).weight)) := by
  constructor
  · intro hdis
    simp [HebbianLearning.update, hdis]
  · intro henb hlr hdr hmax hmin hact i hi
    have hupd : (h.update net).connections = net.connections.map (fun c =>
        { c with weight := max h.minWeight (min h.maxWeight
            (c.weight + h.learningRate * (net.neurons.getD c.fromIdx Neuron.fresh).activity
                * (net.neurons.getD c.toIdx Neuron.fresh).activity
              - h.decayRate * (c.weight - 1))) }) := by
      simp [HebbianLearning.update, henb]
    rw [hupd, getD_map_lt _ _ _ _ cdflt hi]
    have hc := hact (net.connections.getD i cdflt) (getD_mem _ _ _ hi)
    rw [hc.1, hc.2, hlr, hdr, hmax, hmin]
    constructor
    · exact max_le (by norm_num) (min_le_left _ _)
    · intro hlo hhi
      have hgrow : (net.connections.getD i cdflt).weight
          < (net.connections.getD i cdflt).weight + 0.01 * 1 * 1
            - 0.001 * ((net.connections.getD i cdflt).weight - 1) := by
        nlinarith [hhi]
      exact lt_of_lt_of_le (lt_min hhi hgrow) (le_max_right _ _)

/-- The concrete enabled Hebbian instance used by the C6 witness. -/
def hebbianDemo : HebbianLearning :=
  { learningRate := 0.01, decayRate := 0.001, maxWeight := 2, minWeight := 0.1
    enabled := true }

/-- The concrete one-connection network (both endpoint activities 1.0)
used by the C6 witness. -/
def hebbianDemoNet : Network :=
  { regions := []
    connections := [{ id := 0, fromIdx := 0, toIdx := 1, weight := 1, activity := 0
                      signals := [] }]
    neurons :=
      [{ activity := 1, threshold := 0.5, potential := 0, refractory := 0
         outgoing := [0], incoming := [] },
       { activity := 1, threshold := 0.5, potential := 0, refractory := 0
         outgoing := [], incoming := [0] }]
    totalSignals := 0
    activeNeurons := 0 }

/-- Witness for `hebbian_update_weight_monotonicity` at the concrete
enabled instance and one-connection network. -/
theorem hebbian_update_weight_monotonicity_witness :
    ((hebbianDemo.update hebbianDemoNet).connections.getD 0 cdflt).weight ≤ 2 ∧
      (hebbianDemoNet.connections.getD 0 cdflt).weight
        < ((hebbianDemo.update hebbianDemoNet).connections.getD 0 cdflt).weight := by
  have happ := (hebbian_update_weight_monotonicity hebbianDemo hebbianDemoNet).2
    rfl rfl rfl rfl rfl
    (by
      intro c hc
      rcases List.mem_singleton.mp hc with rfl
      constructor <;> norm_num [hebbianDemoNet, Neuron.fresh])
    0 (by norm_num [hebbianDemoNet])
  exact ⟨happ.1, happ.2 (by norm_num [hebbianDemoNet]) (by norm_num [hebbianDemoNet])⟩

/-- The concrete disabled reward-learning instance (one nonzero trace)
used by the C7 counterexample. -/
def rewardDemoDisabled : RewardBasedLearning :=
  { learningRate := 0.01, traceDecay := 0.9, maxWeight := 2, minWeight := 0.1
    enabled := false, traces := [(0, 1)] }

/-- The concrete one-connection network used by the C7
counterexample. -/
def rewardDemoNet : Network :=
  { regions := []
    connections := [{ id := 0, fromIdx := 0, toIdx := 0, weight := 1, activity := 0
                      signals := [] }]
    neurons := []
    totalSignals := 0
    activeNeurons := 0 }

/-- C7 counterexample: on a disabled `RewardBasedLearning` (the
constructed default), `apply_reward(0)` returns immediately — the trace
stays at 1 instead of being halved to 1/2, so "still halves every
eligibility trace" fails as an unconditional statement. -/
theorem apply_reward_zero_disabled_keeps_traces :
    ((rewardDemoDisabled.applyReward rewardDemoNet 0).2).traces = [((0 : ℕ), (1 : ℚ))] ∧
      ((rewardDemoDisabled.applyReward rewardDemoNet 0).2).traces
        ≠ [((0 : ℕ), (1 / 2 : ℚ))] := by
  constructor
  · simp [RewardBasedLearning.applyReward, rewardDemoDisabled]
  · simp only [RewardBasedLearning.applyReward, rewardDemoDisabled]
    norm_num

/-- C7 (amended). When the algorithm is enabled and every connection
weight already lies within `[min_weight, max_weight]`,
`apply_reward(0)` never changes any connection weight (the zero reward
contributes `η·trace·0 = 0` and the clamp is the identity on in-bounds
weights) and halves every eligibility trace.  (When disabled, the call
is a full no-op; out-of-bounds weights would additionally be clamped.) -/
theorem apply_reward_zero_keeps_weights_halves_traces
    (r : RewardBasedLearning) (net : Network) (henb : r.enabled = true)
    (hb : ∀ c ∈ net.connections, r.minWeight ≤ c.weight ∧ c.weight ≤ r.maxWeight) :
    (r.applyReward net 0).1.connections.map Connection.weight
        = net.connections.map Connection.weight ∧
      (r.applyReward net 0).2.traces = r.traces.map (fun p => (p.1, p.2 * 0.5)) := by
  have hred : r.applyReward net 0 =
      ({ net with connections := net.connections.map (fun c =>
          { c with weight := max r.minWeight (min r.maxWeight
              (c.weight + r.learningRate * dictGetD r.traces c.id 0 * 0)) }) },
        { r with traces := r.traces.map (fun p => (p.1, p.2 * 0.5)) }) := by
    simp [RewardBasedLearning.applyReward, henb]
  rw [hred]
  refine ⟨?_, rfl⟩
  rw [List.map_map]
  apply List.map_congr_left
  intro c hc
  have hcb := hb c hc
  simp only [Function.comp]
  rw [mul_zero, add_zero, min_eq_right hcb.2, max_eq_right hcb.1]

/-- Witness for `apply_reward_zero_keeps_weights_halves_traces` at a
concrete enabled instance. -/
theorem apply_reward_zero_keeps_weights_halves_traces_witness :
    (({ rewardDemoDisabled with enabled := true } : RewardBasedLearning).applyReward
          rewardDemoNet 0).1.connections.map Connection.weight
        = rewardDemoNet.connections.map Connection.weight ∧
      (({ rewardDemoDisabled with enabled := true } : RewardBasedLearning).applyReward
          rewardDemoNet 0).2.traces
        = rewardDemoDisabled.traces.map (fun p => (p.1, p.2 * 0.5)) :=
  apply_reward_zero_keeps_weights_halves_traces
    { rewardDemoDisabled with enabled := true } rewardDemoNet rfl
    (by
      intro c hc
      rcases List.mem_singleton.mp hc with rfl
      constructor <;> norm_num [rewardDemoDisabled])

/-- The closed variant set of learning algorithms held by a
`LearningManager` (learning.py stores `LearningAlgorithm` subclass
instances). -/
inductive LearningAlg where
  | hebbian : HebbianLearning → LearningAlg
  | reward : RewardBasedLearning → LearningAlg

/-- `LearningAlgorithm.enable` / `disable` (learning.py lines 38-44). -/
def LearningAlg.setEnabled : LearningAlg → Bool → LearningAlg
  | .hebbian h, b => .hebbian { h with enabled := b }
  | .reward r, b => .reward { r with enabled := b }

/-- `LearningManager` (learning.py lines 153-190): the named-algorithm
registry (dict in insertion order) and the optional active name.  The
back-reference to the network is omitted. -/
structure LearningManager where
  algorithms : List (String × LearningAlg)
  activeAlgorithm : Option String

/-- Python's `self.algorithms[name].enable()`-style keyed in-place
update on the registry. -/
def algsModify (l : List (String × LearningAlg)) (k : String)
    (f : LearningAlg → LearningAlg) : List (String × LearningAlg) :=
  l.map (fun p => if p.1 == k then (p.1, f p.2) else p)

/-- `LearningManager.set_active` (learning.py lines 167-176): only a
registered name switches; the previously active algorithm (if truthy
and still registered — Python's `if self.active_algorithm and ... in`)
is disabled first, then the new one is recorded and enabled.  An
unknown name falls through: the method body ends and Python returns
`None` exactly as on the success path. -/
def LearningManager.setActive (m : LearningManager) (name : String) : LearningManager :=
  if (m.algorithms.find? (fun p => p.1 == name)).isSome then
    let m1 := match m.activeAlgorithm with
      | some prev =>
        if prev ≠ "" ∧ (m.algorithms.find? (fun (p : String × LearningAlg) => p.1 == prev)).isSome then
          let dis := algsModify m.algorithms prev (fun a => a.setEnabled false)
          { m with algorithms := dis }
        else m
      | none => m
    { m1 with activeAlgorithm := some name
              algorithms := algsModify m1.algorithms name (fun a => a.setEnabled true) }
  else m

/-- `Region.stimulate` (network.py lines 175-181): stimulate
`min(count, len(neurons))` neurons from a shuffled copy; the shuffle
permutation produced by `random.shuffle` is passed in explicitly. -/
def Region.stimulate (r : Region) (ns : List Neuron) (strength : ℚ) (count : ℕ)
    (shuffle : List ℕ → List ℕ) : List Neuron :=
  let shuffled := shuffle r.neuronIdxs
  (shuffled.take (min count shuffled.length)).foldl
    (fun a i => modifyIdx (fun n => n.stimulate strength) i a) ns

/-- `Network.stimulate_region` (network.py lines 323-326): stimulates a
known region (default count 5) and silently falls through on an
unknown region id — both paths return Python `None`. -/
def Network.stimulateRegion (net : Network) (regionId : String) (strength : ℚ)
    (shuffle : List ℕ → List ℕ) : Network :=
  match net.regions.find? (fun r => r.id == regionId) with
  | some r => { net with neurons := r.stimulate net.neurons strength 5 shuffle }
  | none => net

/-- The concrete manager used by the C8 counterexample and witness. -/
def c8mgr : LearningManager :=
  { algorithms := [("hebbian", .hebbian (HebbianLearning.init 0.01 0.001 2 0.1))]
    activeAlgorithm := none }

/-- The concrete network used by the C8 counterexample and witness. -/
def c8net : Network :=
  { regions := [{ id := "frontal", neuronIdxs := [0], totalActivity := 0 }]
    connections := []
    neurons :=
      [{ activity := 0, threshold := 0.5, potential := 0, refractory := 0
         outgoing := [], incoming := [] }]
    totalSignals := 0
    activeNeurons := 0 }

/-- C8 counterexample: an operation addressed at an unknown id is a
complete silent no-op — the resulting state is identical to never
having called at all, and (since both source methods return `None` on
every path) nothing whatsoever reports the failure; the claimed
"explicit failure indicator" does not exist. -/
theorem unknown_id_no_failure_indicator :
    c8mgr.setActive "nope" = c8mgr ∧
      c8net.stimulateRegion "nope" 1 id = c8net := by
  constructor
  · have hfind : (c8mgr.algorithms.find? (fun p => p.1 == "nope")).isSome = false := by
      simp [c8mgr]
    simp [LearningManager.setActive, hfind]
  · have hfind : c8net.regions.find? (fun r => r.id == "nope") = none := by
      simp [c8net]
    simp [Network.stimulateRegion, hfind]

/-- C8 (amended). An operation addressed at an unknown caller-supplied
id — `Network.stimulate_region` with an unregistered region id, or
`LearningManager.set_active` with an unregistered algorithm name —
leaves all simulation and learning state unchanged and raises no
error; however the failure is silent (both methods return `None` on
every path), with no explicit failure indicator. -/
theorem unknown_id_operations_are_noops (net : Network) (rid : String)
    (strength : ℚ) (shuffle : List ℕ → List ℕ) (m : LearningManager) (an : String)
    (hrid : net.regions.find? (fun r => r.id == rid) = none)
    (han : m.algorithms.find? (fun p => p.1 == an) = none) :
    net.stimulateRegion rid strength shuffle = net ∧ m.setActive an = m := by
  constructor
  · simp [Network.stimulateRegion, hrid]
  · simp [LearningManager.setActive, han]

/-- Witness for `unknown_id_operations_are_noops` at the concrete C8
manager and network. -/
theorem unknown_id_operations_are_noops_witness :
    c8net.stimulateRegion "occipital" 1 id = c8net ∧
      c8mgr.setActive "predictive" = c8mgr :=
  unknown_id_operations_are_noops c8net "occipital" 1 id c8mgr "predictive"
    (by simp [c8net]) (by simp [c8mgr])

/-- The mutable state threaded through `Network._create_connections`
(network.py lines 264-301): the neuron arena, the connection collection
being built, and the `conn_id` counter. -/
structure GenState where
  neurons : List Neuron
  connections : List Connection
  connId : ℕ

/-- One accepted edge inside `_create_connections` (network.py lines
274-282 and 293-301): append the connection to the collection, its
handle to the source neuron's outgoing list and to the destination
neuron's incoming list, and bump `conn_id`.  The handle is the
connection's position in the collection, which during generation always
equals `conn_id`. -/
def addConn (st : GenState) (i j : ℕ) : GenState :=
  let k := st.connections.length
  let c : Connection := { id := st.connId, fromIdx := i, toIdx := j, weight := 1
                          activity := 0, signals := [] }
  { neurons := modifyIdx (fun n => { n with incoming := n.incoming ++ [k] }) j
      (modifyIdx (fun n => { n with outgoing := n.outgoing ++ [k] }) i st.neurons)
    connections := st.connections ++ [c]
    connId := st.connId + 1 }

/-- The ordered-pair enumeration of the intra-region loop (network.py
lines 271-273): every ordered pair of positionally distinct neurons of
one region. -/
def intraPairs (idxs : List ℕ) : List (ℕ × ℕ) :=
  idxs.enum.flatMap (fun p => idxs.enum.filterMap
    (fun q => if p.1 ≠ q.1 then some (p.2, q.2) else none))

/-- The ordered-pair enumeration of the inter-region loop (network.py
lines 285-292): each unordered region pair once, all cross pairs. -/
def interPairs : List (List ℕ) → List (ℕ × ℕ)
  | [] => []
  | r :: rest =>
    (rest.flatMap (fun r2 => r.flatMap (fun a => r2.map (fun b => (a, b))))) ++
      interPairs rest

/-- All candidate edges of `_create_connections`, in source order:
intra-region pairs region by region, then inter-region pairs. -/
def candidatePairs (regions : List (List ℕ)) : List (ℕ × ℕ) :=
  regions.flatMap intraPairs ++ interPairs regions

/-- `Network._create_connections` (network.py lines 264-301): one
independent random draw per candidate pair decides edge creation; the
draw outcomes are supplied as the oracle, consulted in candidate
order. -/
def createConnections (regions : List (List ℕ)) (oracle : ℕ → Bool)
    (st : GenState) : GenState :=
  (candidatePairs regions).enum.foldl
    (fun s p => if oracle p.1 then addConn s p.2.1 p.2.2 else s) st

/-- The consecutive arena-index blocks assigned to the regions: region
neurons are generated region by region and collected in order into
`all_neurons` (network.py lines 243-259). -/
def regionBlocks : List ℕ → ℕ → List (List ℕ)
  | [], _ => []
  | s :: rest, off => (List.range s).map (fun i => off + i) :: regionBlocks rest (off + s)

/-- Topology generation as performed by `Network.__init__` /
`_initialize` (network.py lines 227-262) for given per-region neuron
counts: fresh neurons with empty connection lists, then
`_create_connections`. -/
def buildTopology (sizes : List ℕ) (oracle : ℕ → Bool) : GenState :=
  createConnections (regionBlocks sizes 0) oracle
    { neurons := List.replicate sizes.sum Neuron.fresh, connections := [], connId := 0 }

theorem getD_append_lt {α : Type} (l1 l2 : List α) (i : ℕ) (d : α)
    (h : i < l1.length) : (l1 ++ l2).getD i d = l1.getD i d := by
  induction l1 generalizing i with
  | nil => simp at h
  | cons x xs ih =>
    cases i with
    | zero => rfl
    | succ m => simpa using ih m (by simpa using h)

theorem getD_append_length {α : Type} (l : List α) (c d : α) :
    (l ++ [c]).getD l.length d = c := by
  induction l with
  | nil => rfl
  | cons x xs ih => simpa using ih

theorem count_single (k k0 : ℕ) :
    ([k0] : List ℕ).count k = if k = k0 then 1 else 0 := by
  by_cases h : k = k0 <;> simp [List.count_cons, h]

/-- The generation invariant: arena size fixed, `conn_id` equal to the
collection length, connection ids equal to positions, all handles in
range, and each handle counted exactly once in its source neuron's
outgoing list and its destination neuron's incoming list and nowhere
else. -/
def GenInv (N : ℕ) (st : GenState) : Prop :=
  st.neurons.length = N ∧
  st.connId = st.connections.length ∧
  (∀ k, k < st.connections.length → (st.connections.getD k cdflt).id = k) ∧
  (∀ k, k < st.connections.length →
    (st.connections.getD k cdflt).fromIdx < N ∧
      (st.connections.getD k cdflt).toIdx < N) ∧
  (∀ m, ∀ x ∈ (st.neurons.getD m Neuron.fresh).outgoing, x < st.connections.length) ∧
  (∀ m, ∀ x ∈ (st.neurons.getD m Neuron.fresh).incoming, x < st.connections.length) ∧
  (∀ k, k < st.connections.length → ∀ m,
    (st.neurons.getD m Neuron.fresh).outgoing.count k
      = if m = (st.connections.getD k cdflt).fromIdx then 1 else 0) ∧
  (∀ k, k < st.connections.length → ∀ m,
    (st.neurons.getD m Neuron.fresh).incoming.count k
      = if m = (st.connections.getD k cdflt).toIdx then 1 else 0)

theorem getD_replicate_self {α : Type} (n m : ℕ) (a : α) :
    (List.replicate n a).getD m a = a := by
  induction n generalizing m with
  | zero => cases m <;> rfl
  | succ k ih =>
    cases m with
    | zero => rfl
    | succ m' => simpa [List.replicate] using ih m'

theorem mem_enum_snd {α : Type} {l : List α} {a : ℕ × α} (ha : a ∈ l.enum) :
    a.2 ∈ l := by
  have := List.mem_map_of_mem Prod.snd ha
  rwa [List.enum_map_snd] at this

theorem addConn_inv {N : ℕ} {st : GenState} (hInv : GenInv N st)
    {i j : ℕ} (hi : i < N) (hj : j < N) : GenInv N (addConn st i j) := by
  obtain ⟨h1, h2, h3, h4, h5, h6, h7, h8⟩ := hInv
  have hilen : i < st.neurons.length := by rw [h1]; exact hi
  have hjlen : j < st.neurons.length := by rw [h1]; exact hj
  have hA : (addConn st i j).neurons
      = modifyIdx (fun n => { n with incoming := n.incoming ++ [st.connections.length] }) j
          (modifyIdx (fun n => { n with outgoing := n.outgoing ++ [st.connections.length] }) i
            st.neurons) := rfl
  have hB : (addConn st i j).connections
      = st.connections ++ [{ id := st.connId, fromIdx := i, toIdx := j, weight := 1
                             activity := 0, signals := [] }] := rfl
  have hC : (addConn st i j).connId = st.connId + 1 := rfl
  have houtg : ∀ m, (((addConn st i j).neurons.getD m Neuron.fresh)).outgoing
      = (st.neurons.getD m Neuron.fresh).outgoing
        ++ (if m = i then [st.connections.length] else []) := by
    intro m
    rw [hA]
    by_cases hmj : m = j
    · subst hmj
      rw [getD_modifyIdx_self _ _ _ _ (by rw [modifyIdx_length]; exact hjlen)]
      by_cases hmi : m = i
      · subst hmi
        rw [getD_modifyIdx_self _ _ _ _ hilen]
        simp
      · rw [getD_modifyIdx_ne _ _ _ _ _ hmi]
        simp [hmi]
    · rw [getD_modifyIdx_ne _ _ _ _ _ hmj]
      by_cases hmi : m = i
      · subst hmi
        rw [getD_modifyIdx_self _ _ _ _ hilen]
        simp
      · rw [getD_modifyIdx_ne _ _ _ _ _ hmi]
        simp [hmi]
  have hincg : ∀ m, (((addConn st i j).neurons.getD m Neuron.fresh)).incoming
      = (st.neurons.getD m Neuron.fresh).incoming
        ++ (if m = j then [st.connections.length] else []) := by
    intro m
    rw [hA]
    by_cases hmj : m = j
    · subst hmj
      rw [getD_modifyIdx_self _ _ _ _ (by rw [modifyIdx_length]; exact hjlen)]
      by_cases hmi : m = i
      · subst hmi
        rw [getD_modifyIdx_self _ _ _ _ hilen]
        simp
      · rw [getD_modifyIdx_ne _ _ _ _ _ hmi]
        simp
    · rw [getD_modifyIdx_ne _ _ _ _ _ hmj]
      by_cases hmi : m = i
      · subst hmi
        rw [getD_modifyIdx_self _ _ _ _ hilen]
        simp [hmj]
      · rw [getD_modifyIdx_ne _ _ _ _ _ hmi]
        simp [hmj]
  have hBlen : (addConn st i j).connections.length = st.connections.length + 1 := by
    rw [hB]
    simp
  refine ⟨?_, ?_, ?_, ?_, ?_, ?_, ?_, ?_⟩
  · rw [hA, modifyIdx_length, modifyIdx_length]
    exact h1
  · rw [hC, hBlen, h2]
  · intro k hk
    rw [hBlen] at hk
    rcases Nat.lt_succ_iff_lt_or_eq.mp hk with hlt | rfl
    · rw [hB, getD_append_lt _ _ _ _ hlt]
      exact h3 k hlt
    · rw [hB, getD_append_length]
      exact h2
  · intro k hk
    rw [hBlen] at hk
    rcases Nat.lt_succ_iff_lt_or_eq.mp hk with hlt | rfl
    · rw [hB, getD_append_lt _ _ _ _ hlt]
      exact h4 k hlt
    · rw [hB, getD_append_length]
      exact ⟨hi, hj⟩
  · intro m x hx
    rw [houtg] at hx
    rw [hBlen]
    rcases List.mem_append.mp hx with hx1 | hx2
    · exact Nat.lt_succ_of_lt (h5 m x hx1)
    · rcases List.mem_singleton.mp (by
        by_cases hmi : m = i
        · rwa [if_pos hmi] at hx2
        · rw [if_neg hmi] at hx2
          exact absurd hx2 (List.not_mem_nil x)) with rfl
      exact Nat.lt_succ_self _
  · intro m x hx
    rw [hincg] at hx
    rw [hBlen]
    rcases List.mem_append.mp hx with hx1 | hx2
    · exact Nat.lt_succ_of_lt (h6 m x hx1)
    · rcases List.mem_singleton.mp (by
        by_cases hmj : m = j
        · rwa [if_pos hmj] at hx2
        · rw [if_neg hmj] at hx2
          exact absurd hx2 (List.not_mem_nil x)) with rfl
      exact Nat.lt_succ_self _
  · intro k hk m
    rw [hBlen] at hk
    rw [houtg, List.count_append]
    rcases Nat.lt_succ_iff_lt_or_eq.mp hk with hlt | rfl
    · rw [hB, getD_append_lt _ _ _ _ hlt]
      have hne : k ≠ st.connections.length := Nat.ne_of_lt hlt
      have hz : (if m = i then [st.connections.length] else []).count k = 0 := by
        by_cases hmi : m = i
        · rw [if_pos hmi, count_single, if_neg hne]
        · rw [if_neg hmi, List.count_nil]
      rw [hz, h7 k hlt m, Nat.add_zero]
    · rw [hB, getD_append_length]
      have hz : (st.neurons.getD m Neuron.fresh).outgoing.count st.connections.length = 0 :=
        List.count_eq_zero.mpr (fun hmem => absurd (h5 m _ hmem) (lt_irrefl _))
      rw [hz, Nat.zero_add]
      by_cases hmi : m = i
      · rw [if_pos hmi, count_single, if_pos rfl, if_pos hmi]
      · rw [if_neg hmi, List.count_nil, if_neg hmi]
  · intro k hk m
    rw [hBlen] at hk
    rw [hincg, List.count_append]
    rcases Nat.lt_succ_iff_lt_or_eq.mp hk with hlt | rfl
    · rw [hB, getD_append_lt _ _ _ _ hlt]
      have hne : k ≠ st.connections.length := Nat.ne_of_lt hlt
      have hz : (if m = j then [st.connections.length] else []).count k = 0 := by
        by_cases hmj : m = j
        · rw [if_pos hmj, count_single, if_neg hne]
        · rw [if_neg hmj, List.count_nil]
      rw [hz, h8 k hlt m, Nat.add_zero]
    · rw [hB, getD_append_length]
      have hz : (st.neurons.getD m Neuron.fresh).incoming.count st.connections.length = 0 :=
        List.count_eq_zero.mpr (fun hmem => absurd (h6 m _ hmem) (lt_irrefl _))
      rw [hz, Nat.zero_add]
      by_cases hmj : m = j
      · rw [if_pos hmj, count_single, if_pos rfl, if_pos hmj]
      · rw [if_neg hmj, List.count_nil, if_neg hmj]

theorem foldPairs_inv {N : ℕ} (l : List (ℕ × ℕ × ℕ)) (oracle : ℕ → Bool)
    (st : GenState) (hst : GenInv N st)
    (hl : ∀ p ∈ l, p.2.1 < N ∧ p.2.2 < N) :
    GenInv N (l.foldl (fun s p => if oracle p.1 then addConn s p.2.1 p.2.2 else s) st) := by
  induction l generalizing st with
  | nil => exact hst
  | cons a rest ih =>
    rw [List.foldl_cons]
    apply ih
    · by_cases h : oracle a.1
      · rw [if_pos h]
        exact addConn_inv hst (hl a (List.mem_cons_self a rest)).1
          (hl a (List.mem_cons_self a rest)).2
      · rw [if_neg h]
        exact hst
    · intro p hp
      exact hl p (List.mem_cons_of_mem a hp)

theorem init_inv (N : ℕ) :
    GenInv N { neurons := List.replicate N Neuron.fresh, connections := [], connId := 0 } := by
  refine ⟨by simp, rfl, ?_, ?_, ?_, ?_, ?_, ?_⟩ <;>
    first
    | (intro k hk; simp at hk)
    | (intro m x hx; rw [getD_replicate_self] at hx; simp [Neuron.fresh] at hx)

theorem regionBlocks_mem_lt (sizes : List ℕ) (off : ℕ) :
    ∀ r ∈ regionBlocks sizes off, ∀ x ∈ r, x < off + sizes.sum := by
  induction sizes generalizing off with
  | nil =>
    intro r hr
    simp [regionBlocks] at hr
  | cons s rest ih =>
    intro r hr x hx
    rw [regionBlocks] at hr
    rcases List.mem_cons.mp hr with rfl | hr2
    · obtain ⟨v, hv, rfl⟩ := List.mem_map.mp hx
      have hvs := List.mem_range.mp hv
      rw [List.sum_cons]
      omega
    · have := ih (off + s) r hr2 x hx
      rw [List.sum_cons]
      omega

theorem intraPairs_mem {idxs : List ℕ} {p : ℕ × ℕ} (hp : p ∈ intraPairs idxs) :
    p.1 ∈ idxs ∧ p.2 ∈ idxs := by
  rw [intraPairs] at hp
  obtain ⟨a, ha, hp2⟩ := List.mem_flatMap.mp hp
  obtain ⟨b, hb, hp3⟩ := List.mem_filterMap.mp hp2
  by_cases hab : a.1 ≠ b.1
  · rw [if_pos hab] at hp3
    have hpe : (a.2, b.2) = p := Option.some.inj hp3
    rw [← hpe]
    refine ⟨mem_enum_snd ha, ?_⟩
    show b.2 ∈ idxs
    exact mem_enum_snd hb
  · rw [if_neg hab] at hp3
    exact absurd hp3 (by simp)

theorem interPairs_mem :
    ∀ (regions : List (List ℕ)) {p : ℕ × ℕ}, p ∈ interPairs regions →
      (∃ r ∈ regions, p.1 ∈ r) ∧ ∃ r ∈ regions, p.2 ∈ r := by
  intro regions
  induction regions with
  | nil =>
    intro p hp
    simp [interPairs] at hp
  | cons r rest ih =>
    intro p hp
    rw [interPairs] at hp
    rcases List.mem_append.mp hp with h | h
    · obtain ⟨r2, hr2, h2⟩ := List.mem_flatMap.mp h
      obtain ⟨a, ha, h3⟩ := List.mem_flatMap.mp h2
      obtain ⟨b, hb, rfl⟩ := List.mem_map.mp h3
      exact ⟨⟨r, List.mem_cons_self r rest, ha⟩,
        ⟨r2, List.mem_cons_of_mem r hr2, hb⟩⟩
    · obtain ⟨⟨ra, hra, hpa⟩, ⟨rb, hrb, hpb⟩⟩ := ih h
      exact ⟨⟨ra, List.mem_cons_of_mem r hra, hpa⟩,
        ⟨rb, List.mem_cons_of_mem r hrb, hpb⟩⟩

theorem candidatePairs_regionBlocks_lt (sizes : List ℕ) :
    ∀ p ∈ candidatePairs (regionBlocks sizes 0), p.1 < sizes.sum ∧ p.2 < sizes.sum := by
  intro p hp
  rcases List.mem_append.mp hp with h | h
  · obtain ⟨r, hr, hpr⟩ := List.mem_flatMap.mp h
    have hm := intraPairs_mem hpr
    have hb := regionBlocks_mem_lt sizes 0 r hr
    exact ⟨by simpa using hb p.1 hm.1, by simpa using hb p.2 hm.2⟩
  · obtain ⟨⟨ra, hra, hpa⟩, ⟨rb, hrb, hpb⟩⟩ := interPairs_mem _ h
    exact ⟨by simpa using regionBlocks_mem_lt sizes 0 ra hra p.1 hpa,
      by simpa using regionBlocks_mem_lt sizes 0 rb hrb p.2 hpb⟩

theorem count_range_one {n k : ℕ} (hk : k < n) : (List.range n).count k = 1 := by
  induction n with
  | zero => omega
  | succ m ih =>
    rw [List.range_succ, List.count_append]
    rcases Nat.lt_succ_iff_lt_or_eq.mp hk with hlt | rfl
    · rw [ih hlt, count_single, if_neg (Nat.ne_of_lt hlt)]
    · rw [List.count_eq_zero.mpr (by simp), count_single, if_pos rfl]

/-- C9. After topology generation (`Network.__init__` →
`_create_connections`), for every per-region neuron count vector and
every outcome of the random draws: connection ids are exactly the
positions `0..len-1` of the collection (so each connection occurs
exactly once in the collection — its id occurs once), and every
connection's handle occurs exactly once in its source neuron's
outgoing list, exactly once in its destination neuron's incoming list,
and in no other neuron's lists — no duplication, no orphans. -/
theorem topology_connection_ownership (sizes : List ℕ) (oracle : ℕ → Bool) :
    ((buildTopology sizes oracle).connections.map Connection.id
        = List.range (buildTopology sizes oracle).connections.length) ∧
      ∀ k, k < (buildTopology sizes oracle).connections.length →
        ((buildTopology sizes oracle).connections.map Connection.id).count
            ((buildTopology sizes oracle).connections.getD k cdflt).id = 1 ∧
          ((buildTopology sizes oracle).neurons.getD
              ((buildTopology sizes oracle).connections.getD k cdflt).fromIdx
              Neuron.fresh).outgoing.count k = 1 ∧
          ((buildTopology sizes oracle).neurons.getD
              ((buildTopology sizes oracle).connections.getD k cdflt).toIdx
              Neuron.fresh).incoming.count k = 1 ∧
          (∀ m, m ≠ ((buildTopology sizes oracle).connections.getD k cdflt).fromIdx →
            ((buildTopology sizes oracle).neurons.getD m Neuron.fresh).outgoing.count k
              = 0) ∧
          (∀ m, m ≠ ((buildTopology sizes oracle).connections.getD k cdflt).toIdx →
            ((buildTopology sizes oracle).neurons.getD m Neuron.fresh).incoming.count k
              = 0) := by
  have hInv : GenInv sizes.sum (buildTopology sizes oracle) := by
    rw [buildTopology, createConnections]
    apply foldPairs_inv _ oracle _ (init_inv sizes.sum)
    intro p hp
    exact candidatePairs_regionBlocks_lt sizes p.2 (mem_enum_snd hp)
  obtain ⟨h1, h2, h3, h4, h5, h6, h7, h8⟩ := hInv
  have hmapid : (buildTopology sizes oracle).connections.map Connection.id
      = List.range (buildTopology sizes oracle).connections.length := by
    apply List.ext_getElem (by simp)
    intro u hu1 hu2
    rw [List.getElem_map, List.getElem_range]
    have := h3 u (by simpa using hu1)
    rwa [List.getD_eq_getElem _ _ (by simpa using hu1)] at this
  refine ⟨hmapid, ?_⟩
  intro k hk
  refine ⟨?_, ?_, ?_, ?_, ?_⟩
  · rw [hmapid, h3 k hk]
    exact count_range_one hk
  · rw [h7 k hk, if_pos rfl]
  · rw [h8 k hk, if_pos rfl]
  · intro m hm
    rw [h7 k hk, if_neg hm]
  · intro m hm
    rw [h8 k hk, if_neg hm]

/-- Witness for `topology_connection_ownership` with two neurons in one
region and an all-accepting oracle (two connections created). -/
theorem topology_connection_ownership_witness :
    ((buildTopology [2] (fun _ => true)).neurons.getD
        ((buildTopology [2] (fun _ => true)).connections.getD 0 cdflt).fromIdx
        Neuron.fresh).outgoing.count 0 = 1 ∧
      ((buildTopology [2] (fun _ => true)).neurons.getD
          ((buildTopology [2] (fun _ => true)).connections.getD 0 cdflt).toIdx
          Neuron.fresh).incoming.count 0 = 1 := by
  have h := topology_connection_ownership [2] (fun _ => true)
  have hlen : 0 < (buildTopology [2] (fun _ => true)).connections.length := by decide
  exact ⟨(h.2 0 hlen).2.1, (h.2 0 hlen).2.2.1⟩

end BrainSim
